import Mathlib

/-!
Verification of the filesystem graph adapter in
trustfall_core/src/filesystem_interpreter.rs.

The Rust source is embedded shallowly:
directory listings become lists of entry outcomes, iterators become
structurally recursive scan functions that also report whether the run
panicked, and the adapter methods become functions returning Except, where
an error value models a Rust panic (assert failure, unwrap on None,
todo or unimplemented or unreachable).
-/

/-- Model of an OS string as obtained from a directory entry file name:
either valid UTF-8 with the given contents, or a byte sequence that is not
valid UTF-8. -/
inductive OsString where
  | utf8 (s : String)
  | invalid
deriving DecidableEq

/-- Model of OsStr to_str: some when the bytes are valid UTF-8, none
otherwise.  The Rust scans call unwrap on this value. -/
def OsString.to_str : OsString → Option String
  | OsString.utf8 s => some s
  | OsString.invalid => none

/-- Result of a successful metadata read, classified the way the scans use
it: metadata reporting a regular file, a directory, or neither. -/
inductive Metadata where
  | file
  | dir
  | other
deriving DecidableEq

/-- Model of one directory entry: its file name and the outcome of the
metadata call (none models an Err result from metadata). -/
structure DirEntry where
  file_name : OsString
  metadata : Option Metadata
deriving DecidableEq

/-- Model of the vertex structs of the source. -/
structure DirectoryVertex where
  name : String
  path : String
deriving DecidableEq

structure FileVertex where
  name : String
  extension : Option String
  path : String
deriving DecidableEq

inductive FilesystemVertex where
  | Directory (d : DirectoryVertex)
  | File (f : FileVertex)
deriving DecidableEq

/-- Whether the first character of a string is a slash. -/
def headIsSlash (s : String) : Bool :=
  match s.data with
  | [] => false
  | c :: _ => c = '/'

/-- Whether the last character of a string is a slash. -/
def lastIsSlash (s : String) : Bool :=
  match s.data.getLast? with
  | some c => c = '/'
  | none => false

/-- Model of PathBuf push on Unix: an absolute argument replaces the
buffer; pushing onto an empty buffer keeps the argument as is; otherwise a
separator is inserted unless the buffer already ends with one. -/
def pathPush (buf p : String) : String :=
  if headIsSlash p then p
  else if buf = "" then p
  else if lastIsSlash buf then buf ++ p
  else buf ++ "/" ++ p

/-- Model of PathBuf new, extend with two components, then to_str, exactly
as both scans build the path field of a vertex. -/
def pathExtend2 (a b : String) : String := pathPush (pathPush "" a) b

/-- Characters after the last dot of the list, or none when no dot
occurs. -/
def afterLastDot : List Char → Option (List Char)
  | [] => none
  | c :: rest =>
    match afterLastDot rest with
    | some t => some t
    | none => if c = '.' then some rest else none

/-- Model of Rust Path extension for a single-component file name as
produced by a directory read: none for the name dot-dot, none when the name
has no dot, none when the only dot is the leading character, otherwise the
substring after the last dot. -/
def rustExtension (name : String) : Option String :=
  if name.data = ['.', '.'] then none
  else
    match name.data with
    | [] => none
    | c :: rest =>
      if c = '.' ∧ '.' ∉ rest then none
      else (afterLastDot (c :: rest)).map (fun t => String.mk t)

/-- Following the words of the specification sentence for claim C4, for
comparison with rustExtension: the substring after the last dot in the
name, absent when the name has no dot. -/
def specExtension (name : String) : Option String :=
  (afterLastDot name.data).map (fun t => String.mk t)

/-- One full run of DirectoryContainsFileIterator over the remaining
directory listing (a none item models an Err outcome from the directory
read).  The Bool is true when the run panicked, that is when unwrap failed
on a non-UTF-8 file name of an entry whose metadata reports a regular
file; the list holds the vertices yielded before any panic. -/
def containsFileScan (dirPath : String) : List (Option DirEntry) → List FilesystemVertex × Bool
  | [] => ([], false)
  | none :: rest => containsFileScan dirPath rest
  | some e :: rest =>
    match e.metadata with
    | none => containsFileScan dirPath rest
    | some Metadata.file =>
      match e.file_name.to_str with
      | none => ([], true)
      | some name =>
        let r := containsFileScan dirPath rest
        (FilesystemVertex.File
            { name := name, extension := rustExtension name, path := pathExtend2 dirPath name } :: r.1,
          r.2)
    | some _ => containsFileScan dirPath rest

/-- One full run of SubdirectoryIterator over the remaining directory
listing, with the same panic convention as containsFileScan.  Entries whose
metadata reports a directory and whose name is one of the three hardcoded
exclusions are skipped. -/
def subdirectoryScan (dirPath : String) : List (Option DirEntry) → List FilesystemVertex × Bool
  | [] => ([], false)
  | none :: rest => subdirectoryScan dirPath rest
  | some e :: rest =>
    match e.metadata with
    | none => subdirectoryScan dirPath rest
    | some Metadata.dir =>
      match e.file_name.to_str with
      | none => ([], true)
      | some name =>
        if name = ".git" ∨ name = ".vscode" ∨ name = "target" then subdirectoryScan dirPath rest
        else
          let r := subdirectoryScan dirPath rest
          (FilesystemVertex.Directory { name := name, path := pathExtend2 dirPath name } :: r.1,
            r.2)
    | some _ => subdirectoryScan dirPath rest

/-- Model of the scalar value type: only the variants this adapter
produces. -/
inductive FieldValue where
  | Null
  | String (s : String)
deriving DecidableEq

/-- Model of a per-row query context: an opaque payload standing for the
rest of the row state, plus the active vertex, which may be absent when an
earlier stage removed the subject of the row. -/
structure DataContext (V : Type) where
  tag : Nat
  active_vertex : Option V
deriving DecidableEq

abbrev FsContext := DataContext FilesystemVertex

/-- Model of the edge parameter map; the adapter only ever asks whether it
is empty. -/
abbrev EdgeParameters := List (String × FieldValue)

/-- State of OriginIterator: the prebuilt root vertex and whether it has
been produced already. -/
structure OriginIterator where
  origin_vertex : DirectoryVertex
  produced : Bool
deriving DecidableEq

/-- Model of OriginIterator next: yields the root Directory vertex once,
then yields nothing and leaves the state unchanged. -/
def OriginIterator.next (it : OriginIterator) : Option FilesystemVertex × OriginIterator :=
  if it.produced then (none, it)
  else (some (FilesystemVertex.Directory it.origin_vertex), { it with produced := true })

/-- Model of EdgeResolverIterator run to exhaustion.  It is parametric in
the type of neighbor sequences: the resolver can only pass along the value
obtained from the edge resolver, or the designated empty sequence for a
context whose active vertex is absent, so it cannot expand, reorder, drop
or duplicate anything. -/
def edgeResolverIterator {α : Type} (origin : String) (emptySeq : α)
    (edge_resolver : String → FilesystemVertex → α) :
    List FsContext → List (FsContext × α)
  | [] => []
  | context :: rest =>
    match context.active_vertex with
    | some vertex =>
      (context, edge_resolver origin vertex) ::
        edgeResolverIterator origin emptySeq edge_resolver rest
    | none =>
      (context, emptySeq) :: edgeResolverIterator origin emptySeq edge_resolver rest

/-- Run a fallible per-context resolver over a whole context stream,
stopping at the first panic; this is the strict rendering of the lazy
mapped iterators built by resolve_property. -/
def resolveEach {α β : Type} (f : α → Except Unit β) : List α → Except Unit (List β)
  | [] => Except.ok []
  | a :: rest =>
    match f a with
    | Except.error e => Except.error e
    | Except.ok b =>
      match resolveEach f rest with
      | Except.error e => Except.error e
      | Except.ok bs => Except.ok (b :: bs)

/-- Model of the filesystem seen through read_dir: for a real path it
either fails (an error models a read_dir unwrap panic) or produces the
listing of entry outcomes. -/
def FileSystem : Type := String → Except Unit (List (Option DirEntry))

/-- Collapse a scan run to the value obtained by pulling it to exhaustion:
a panic during the run becomes an error. -/
def scanResult (r : List FilesystemVertex × Bool) : Except Unit (List FilesystemVertex) :=
  if r.2 then Except.error () else Except.ok r.1

/-- Model of directory_contains_file_handler: unreachable on a non
Directory vertex, otherwise open the directory at origin joined with the
vertex path and run the file listing scan. -/
def directory_contains_file_handler (fsys : FileSystem) (origin : String)
    (vertex : FilesystemVertex) : Except Unit (List FilesystemVertex) :=
  match vertex with
  | FilesystemVertex.Directory dir =>
    match fsys (pathExtend2 origin dir.path) with
    | Except.error e => Except.error e
    | Except.ok listing => scanResult (containsFileScan dir.path listing)
  | _ => Except.error ()

/-- Model of directory_subdirectory_handler, analogous to the file
handler. -/
def directory_subdirectory_handler (fsys : FileSystem) (origin : String)
    (vertex : FilesystemVertex) : Except Unit (List FilesystemVertex) :=
  match vertex with
  | FilesystemVertex.Directory dir =>
    match fsys (pathExtend2 origin dir.path) with
    | Except.error e => Except.error e
    | Except.ok listing => scanResult (subdirectoryScan dir.path listing)
  | _ => Except.error ()

/-- Model of resolve_starting_vertices: the two asserts, then the origin
iterator seeded with the sentinel root vertex. -/
def resolve_starting_vertices (edge_name : String) (parameters : EdgeParameters) :
    Except Unit OriginIterator :=
  if edge_name = "OriginDirectory" then
    if parameters.isEmpty then
      Except.ok { origin_vertex := { name := "<origin>", path := "" }, produced := false }
    else Except.error ()
  else Except.error ()

/-- Model of resolve_property: dispatch on the declared type name and the
property name exactly as the nested match of the source, with todo arms
becoming immediate errors, and each recognized arm mapping the per-context
closure of the source over the context stream (the unreachable arm for a
variant mismatch becomes a per-context error). -/
def resolve_property (contexts : List FsContext) (type_name property_name : String) :
    Except Unit (List (FsContext × FieldValue)) :=
  if type_name = "Directory" then
    if property_name = "name" then
      resolveEach (fun context =>
        match context.active_vertex with
        | none => Except.ok (context, FieldValue.Null)
        | some (FilesystemVertex.Directory x) => Except.ok (context, FieldValue.String x.name)
        | some _ => Except.error ()) contexts
    else if property_name = "path" then
      resolveEach (fun context =>
        match context.active_vertex with
        | none => Except.ok (context, FieldValue.Null)
        | some (FilesystemVertex.Directory x) => Except.ok (context, FieldValue.String x.path)
        | some _ => Except.error ()) contexts
    else if property_name = "__typename" then
      resolveEach (fun context =>
        match context.active_vertex with
        | none => Except.ok (context, FieldValue.Null)
        | some _ => Except.ok (context, FieldValue.String "Directory")) contexts
    else Except.error ()
  else if type_name = "File" then
    if property_name = "name" then
      resolveEach (fun context =>
        match context.active_vertex with
        | none => Except.ok (context, FieldValue.Null)
        | some (FilesystemVertex.File x) => Except.ok (context, FieldValue.String x.name)
        | some _ => Except.error ()) contexts
    else if property_name = "path" then
      resolveEach (fun context =>
        match context.active_vertex with
        | none => Except.ok (context, FieldValue.Null)
        | some (FilesystemVertex.File x) => Except.ok (context, FieldValue.String x.path)
        | some _ => Except.error ()) contexts
    else if property_name = "extension" then
      resolveEach (fun context =>
        match context.active_vertex with
        | none => Except.ok (context, FieldValue.Null)
        | some (FilesystemVertex.File x) =>
          Except.ok (context,
            match x.extension with
            | some e => FieldValue.String e
            | none => FieldValue.Null)
        | some _ => Except.error ()) contexts
    else if property_name = "__typename" then
      resolveEach (fun context =>
        match context.active_vertex with
        | none => Except.ok (context, FieldValue.Null)
        | some _ => Except.ok (context, FieldValue.String "File")) contexts
    else Except.error ()
  else Except.error ()

/-- Model of resolve_neighbors: dispatch on the declared type name and the
edge name; the two recognized pairs wire the matching handler into the
edge resolver iterator, every other pair is an immediate unimplemented
panic.  The outer Except is the dispatch outcome; each paired neighbor
sequence carries its own Except for panics that would strike only when the
interpreter later pulls from it. -/
def resolve_neighbors (fsys : FileSystem) (origin : String) (contexts : List FsContext)
    (type_name edge_name : String) :
    Except Unit (List (FsContext × Except Unit (List FilesystemVertex))) :=
  if type_name = "Directory" ∧ edge_name = "out_Directory_ContainsFile" then
    Except.ok (edgeResolverIterator origin (Except.ok [])
      (directory_contains_file_handler fsys) contexts)
  else if type_name = "Directory" ∧ edge_name = "out_Directory_Subdirectory" then
    Except.ok (edgeResolverIterator origin (Except.ok [])
      (directory_subdirectory_handler fsys) contexts)
  else Except.error ()

/-- Model of resolve_coercion: the body is a single todo, so every call
panics. -/
def resolve_coercion (contexts : List FsContext) (type_name coerce_to_type : String) :
    Except Unit (List (FsContext × Bool)) :=
  Except.error ()

/-- The declared property table of the schema as the spec states it. -/
def declaredProperty (type_name property_name : String) : Prop :=
  (type_name = "Directory" ∧ property_name ∈ ["name", "path", "__typename"]) ∨
  (type_name = "File" ∧ property_name ∈ ["name", "path", "extension", "__typename"])

/-- C2: every vertex yielded by the subdirectory scan, over any directory
and any listing (so in particular listings in which directories named .git,
.vscode or target exist), is a Directory vertex whose name is none of the
three hardcoded exclusions. -/
theorem subdirectory_scan_excludes (dirPath : String) (entries : List (Option DirEntry))
    (v : FilesystemVertex) (hv : v ∈ (subdirectoryScan dirPath entries).1) :
    ∃ d : DirectoryVertex, v = FilesystemVertex.Directory d ∧
      d.name ≠ ".git" ∧ d.name ≠ ".vscode" ∧ d.name ≠ "target" := by
  induction entries with
  | nil => simp [subdirectoryScan] at hv
  | cons e rest ih =>
    match e with
    | none => exact ih (by simpa [subdirectoryScan] using hv)
    | some entry =>
      match hm : entry.metadata with
      | none =>
        refine ih ?_
        simpa [subdirectoryScan, hm] using hv
      | some Metadata.file =>
        refine ih ?_
        simpa [subdirectoryScan, hm] using hv
      | some Metadata.other =>
        refine ih ?_
        simpa [subdirectoryScan, hm] using hv
      | some Metadata.dir =>
        match hn : entry.file_name.to_str with
        | none => simp [subdirectoryScan, hm, hn] at hv
        | some name =>
          by_cases hex : name = ".git" ∨ name = ".vscode" ∨ name = "target"
          · refine ih ?_
            simpa [subdirectoryScan, hm, hn, hex] using hv
          · rw [subdirectoryScan] at hv
            simp only [hm, hn, if_neg hex] at hv
            rcases List.mem_cons.mp hv with hv | hv
            · push_neg at hex
              exact ⟨{ name := name, path := pathExtend2 dirPath name }, hv,
                hex.1, hex.2.1, hex.2.2⟩
            · exact ih hv

/-- Demonstration input for the subdirectory scan: a listing that contains
directories named .git, .vscode and target alongside an ordinary one. -/
def demoListing : List (Option DirEntry) :=
  [some { file_name := OsString.utf8 ".git", metadata := some Metadata.dir },
   some { file_name := OsString.utf8 "src", metadata := some Metadata.dir },
   some { file_name := OsString.utf8 ".vscode", metadata := some Metadata.dir },
   some { file_name := OsString.utf8 "target", metadata := some Metadata.dir }]

theorem subdirectory_scan_excludes_witness :
    ∃ d : DirectoryVertex,
      FilesystemVertex.Directory { name := "src", path := "src" } =
        FilesystemVertex.Directory d ∧
      d.name ≠ ".git" ∧ d.name ≠ ".vscode" ∧ d.name ≠ "target" :=
  subdirectory_scan_excludes "" demoListing
    (FilesystemVertex.Directory { name := "src", path := "src" }) (by decide)

/-- C8: a listing item that is itself an error, and an entry whose
metadata cannot be read, are skipped by both scans: the scan of the
remaining listing is unchanged, so such an entry neither fails the scan
nor yields a vertex. -/
theorem metadata_error_skipped (dirPath : String) (rest : List (Option DirEntry)) :
    (containsFileScan dirPath (none :: rest) = containsFileScan dirPath rest ∧
     subdirectoryScan dirPath (none :: rest) = subdirectoryScan dirPath rest) ∧
    ∀ nm : OsString,
      containsFileScan dirPath (some { file_name := nm, metadata := none } :: rest) =
        containsFileScan dirPath rest ∧
      subdirectoryScan dirPath (some { file_name := nm, metadata := none } :: rest) =
        subdirectoryScan dirPath rest :=
  ⟨⟨rfl, rfl⟩, fun _ => ⟨rfl, rfl⟩⟩

/-- C9: the file listing scan applies no name based filtering: an entry
whose metadata reports a regular file with any valid UTF-8 name, among
them .git, .vscode and target, is yielded as a File vertex ahead of the
rest of the scan. -/
theorem file_scan_no_name_filter (dirPath name : String) (rest : List (Option DirEntry)) :
    (containsFileScan dirPath
        (some { file_name := OsString.utf8 name, metadata := some Metadata.file } :: rest)).1 =
      FilesystemVertex.File
          { name := name, extension := rustExtension name, path := pathExtend2 dirPath name } ::
        (containsFileScan dirPath rest).1 ∧
    (containsFileScan dirPath
        (some { file_name := OsString.utf8 name, metadata := some Metadata.file } :: rest)).2 =
      (containsFileScan dirPath rest).2 ∧
    FilesystemVertex.File
        { name := name, extension := rustExtension name, path := pathExtend2 dirPath name } ∈
      (containsFileScan dirPath
        (some { file_name := OsString.utf8 name, metadata := some Metadata.file } :: rest)).1 :=
  ⟨rfl, rfl, List.mem_cons_self _ _⟩

/-- C10: an entry that passes the type filter of a scan but whose file
name is not valid UTF-8 makes the scan panic at that entry: nothing is
yielded from that point on and the panic flag is set, regardless of the
rest of the listing. -/
theorem invalid_utf8_panics (dirPath : String) (rest : List (Option DirEntry)) :
    containsFileScan dirPath
        (some { file_name := OsString.invalid, metadata := some Metadata.file } :: rest) =
      ([], true) ∧
    subdirectoryScan dirPath
        (some { file_name := OsString.invalid, metadata := some Metadata.dir } :: rest) =
      ([], true) :=
  ⟨rfl, rfl⟩

/-- C1: the edge resolver iterator produces exactly one output pair per
input context in input order (its first projections are the input stream
itself), pairs a context whose active vertex is absent with the designated
empty sequence, and pairs every other context with exactly the value of
the edge resolver on its vertex; the statement is parametric in the
neighbor sequence type, so the resolver cannot expand any neighbor
sequence itself. -/
theorem edge_resolver_one_to_one {α : Type} (origin : String) (emptySeq : α)
    (f : String → FilesystemVertex → α) (contexts : List FsContext) :
    (edgeResolverIterator origin emptySeq f contexts).map Prod.fst = contexts ∧
    ∀ p ∈ edgeResolverIterator origin emptySeq f contexts,
      (p.1.active_vertex = none → p.2 = emptySeq) ∧
      ∀ v, p.1.active_vertex = some v → p.2 = f origin v := by
  induction contexts with
  | nil => exact ⟨rfl, by simp [edgeResolverIterator]⟩
  | cons context rest ih =>
    match hv : context.active_vertex with
    | some vertex =>
      refine ⟨?_, ?_⟩
      · simp only [edgeResolverIterator, hv, List.map_cons, ih.1]
      · intro p hp
        rw [edgeResolverIterator] at hp
        simp only [hv] at hp
        rcases List.mem_cons.mp hp with hp | hp
        · subst hp
          exact ⟨fun h => by simp [hv] at h,
            fun v h => by rw [hv] at h; rw [Option.some.inj h]⟩
        · exact ih.2 p hp
    | none =>
      refine ⟨?_, ?_⟩
      · simp only [edgeResolverIterator, hv, List.map_cons, ih.1]
      · intro p hp
        rw [edgeResolverIterator] at hp
        simp only [hv] at hp
        rcases List.mem_cons.mp hp with hp | hp
        · subst hp
          exact ⟨fun _ => rfl, fun v h => by rw [hv] at h; exact absurd h (by simp)⟩
        · exact ih.2 p hp

/-- Demonstration context stream: one context with an active vertex and
one whose active vertex is absent. -/
def demoContexts : List FsContext :=
  [{ tag := 0, active_vertex := some (FilesystemVertex.Directory { name := "<origin>", path := "" }) },
   { tag := 1, active_vertex := none }]

theorem edge_resolver_one_to_one_witness :
    (edgeResolverIterator "" ([] : List FilesystemVertex)
        (fun _ _ => [FilesystemVertex.Directory { name := "a", path := "a" }])
        demoContexts).map Prod.fst = demoContexts ∧
    ∀ p ∈ edgeResolverIterator "" ([] : List FilesystemVertex)
        (fun _ _ => [FilesystemVertex.Directory { name := "a", path := "a" }]) demoContexts,
      (p.1.active_vertex = none → p.2 = []) ∧
      ∀ v, p.1.active_vertex = some v →
        p.2 = [FilesystemVertex.Directory { name := "a", path := "a" }] :=
  edge_resolver_one_to_one "" []
    (fun _ _ => [FilesystemVertex.Directory { name := "a", path := "a" }]) demoContexts

/-- C5: resolve_starting_vertices succeeds exactly when the edge name is
OriginDirectory and the parameter set is empty, every other input being an
assertion panic; on success the returned iterator yields the Directory
vertex with the sentinel name and empty path on its first pull, and any
iterator state that has already produced yields nothing and stays
unchanged, so exactly one vertex is ever produced. -/
theorem resolve_starting_vertices_spec (edge_name : String) (parameters : EdgeParameters) :
    ((∃ it, resolve_starting_vertices edge_name parameters = Except.ok it) ↔
      edge_name = "OriginDirectory" ∧ parameters = []) ∧
    ∀ it, resolve_starting_vertices edge_name parameters = Except.ok it →
      it.next = (some (FilesystemVertex.Directory { name := "<origin>", path := "" }),
        { origin_vertex := { name := "<origin>", path := "" }, produced := true }) ∧
      ∀ it2 : OriginIterator, it2.produced = true → it2.next = (none, it2) := by
  constructor
  · constructor
    · rintro ⟨it, hit⟩
      by_cases he : edge_name = "OriginDirectory"
      · by_cases hp : parameters.isEmpty
        · exact ⟨he, List.isEmpty_iff.mp hp⟩
        · simp [resolve_starting_vertices, he, hp] at hit
      · simp [resolve_starting_vertices, he] at hit
    · rintro ⟨he, hp⟩
      subst he; subst hp
      exact ⟨_, rfl⟩
  · intro it hit
    by_cases he : edge_name = "OriginDirectory"
    · by_cases hp : parameters.isEmpty
      · simp only [resolve_starting_vertices, he, hp, if_true, Except.ok.injEq] at hit
        subst hit
        exact ⟨rfl, fun it2 h2 => by simp [OriginIterator.next, h2]⟩
      · simp [resolve_starting_vertices, he, hp] at hit
    · simp [resolve_starting_vertices, he] at hit

theorem resolve_starting_vertices_spec_witness :
    (OriginIterator.mk { name := "<origin>", path := "" } false).next =
      (some (FilesystemVertex.Directory { name := "<origin>", path := "" }),
        { origin_vertex := { name := "<origin>", path := "" }, produced := true }) ∧
    ∀ it2 : OriginIterator, it2.produced = true → it2.next = (none, it2) :=
  (resolve_starting_vertices_spec "OriginDirectory" []).2
    (OriginIterator.mk { name := "<origin>", path := "" } false) rfl

/-- Every File vertex yielded by the file listing scan has its path field
built by the two component path join of the scanned directory path with
its own name field. -/
theorem containsFileScan_path (dirPath : String) (entries : List (Option DirEntry))
    (f : FileVertex) (hf : FilesystemVertex.File f ∈ (containsFileScan dirPath entries).1) :
    f.path = pathExtend2 dirPath f.name := by
  induction entries with
  | nil => simp [containsFileScan] at hf
  | cons e rest ih =>
    match e with
    | none => exact ih (by simpa [containsFileScan] using hf)
    | some entry =>
      match hm : entry.metadata with
      | none => exact ih (by simpa [containsFileScan, hm] using hf)
      | some Metadata.dir => exact ih (by simpa [containsFileScan, hm] using hf)
      | some Metadata.other => exact ih (by simpa [containsFileScan, hm] using hf)
      | some Metadata.file =>
        match hn : entry.file_name.to_str with
        | none => simp [containsFileScan, hm, hn] at hf
        | some name =>
          rw [containsFileScan] at hf
          simp only [hm, hn] at hf
          rcases List.mem_cons.mp hf with hf | hf
          · rw [FilesystemVertex.File.injEq] at hf
            subst hf
            rfl
          · exact ih hf

/-- Pushing onto the empty buffer returns the pushed component. -/
theorem pathPush_empty (p : String) : pathPush "" p = p := by
  unfold pathPush
  by_cases h : headIsSlash p <;> simp [h]

/-- Pushing a relative component onto a nonempty buffer with no trailing
separator inserts exactly one separator. -/
theorem pathPush_sep (buf p : String) (hb : buf ≠ "") (hbs : lastIsSlash buf = false)
    (hp : headIsSlash p = false) : pathPush buf p = buf ++ "/" ++ p := by
  simp [pathPush, hb, hbs, hp]

/-- C3 counterexample: scanning from the origin directory, whose path is
the empty string, a regular file named b is yielded with path b, which
differs from the join of the empty parent path, a separator and the
name. -/
theorem file_path_join_counterexample :
    (containsFileScan ""
        [some { file_name := OsString.utf8 "b", metadata := some Metadata.file }]).1 =
      [FilesystemVertex.File { name := "b", extension := none, path := "b" }] ∧
    ("b" : String) ≠ "" ++ "/" ++ "b" := by
  constructor
  · rfl
  · decide

/-- C3 amended: every File vertex yielded by the file listing scan has
path equal to the two component join of the parent path with its name;
when the parent path is nonempty, does not end with a separator, and the
name does not begin with one (names read from a directory never contain a
separator), this is the parent path, a separator, and the name; when the
parent is the origin vertex, whose path is the empty string, the path is
the bare name with no leading separator. -/
theorem file_path_join_amended (dirPath : String) (entries : List (Option DirEntry))
    (f : FileVertex) (hf : FilesystemVertex.File f ∈ (containsFileScan dirPath entries).1) :
    f.path = pathExtend2 dirPath f.name ∧
    (dirPath = "" → headIsSlash f.name = false → f.path = f.name) ∧
    (dirPath ≠ "" → lastIsSlash dirPath = false → headIsSlash f.name = false →
      f.path = dirPath ++ "/" ++ f.name) := by
  have hp := containsFileScan_path dirPath entries f hf
  refine ⟨hp, ?_, ?_⟩
  · intro hd _
    subst hd
    rw [hp]
    show pathPush (pathPush "" "") f.name = f.name
    rw [pathPush_empty, pathPush_empty]
  · intro hd hds hns
    rw [hp]
    show pathPush (pathPush "" dirPath) f.name = dirPath ++ "/" ++ f.name
    rw [pathPush_empty, pathPush_sep dirPath f.name hd hds hns]

theorem file_path_join_amended_witness :
    (({ name := "x.txt", extension := some "txt", path := "a/x.txt" } : FileVertex).path =
        pathExtend2 "a" ({ name := "x.txt", extension := some "txt", path := "a/x.txt" } : FileVertex).name ∧
      (("a" : String) = "" → headIsSlash "x.txt" = false → ("a/x.txt" : String) = "x.txt") ∧
      (("a" : String) ≠ "" → lastIsSlash "a" = false → headIsSlash "x.txt" = false →
        ("a/x.txt" : String) = "a" ++ "/" ++ "x.txt")) ∧
    (({ name := "b", extension := none, path := "b" } : FileVertex).path =
        pathExtend2 "" ({ name := "b", extension := none, path := "b" } : FileVertex).name ∧
      (("" : String) = "" → headIsSlash "b" = false → ("b" : String) = "b") ∧
      (("" : String) ≠ "" → lastIsSlash "" = false → headIsSlash "b" = false →
        ("b" : String) = "" ++ "/" ++ "b")) :=
  ⟨file_path_join_amended "a"
      [some { file_name := OsString.utf8 "x.txt", metadata := some Metadata.file }]
      { name := "x.txt", extension := some "txt", path := "a/x.txt" } (by decide),
    file_path_join_amended ""
      [some { file_name := OsString.utf8 "b", metadata := some Metadata.file }]
      { name := "b", extension := none, path := "b" } (by decide)⟩

/-- Every File vertex yielded by the file listing scan has its extension
field computed by rustExtension from its own name field. -/
theorem containsFileScan_extension (dirPath : String) (entries : List (Option DirEntry))
    (f : FileVertex) (hf : FilesystemVertex.File f ∈ (containsFileScan dirPath entries).1) :
    f.extension = rustExtension f.name := by
  induction entries with
  | nil => simp [containsFileScan] at hf
  | cons e rest ih =>
    match e with
    | none => exact ih (by simpa [containsFileScan] using hf)
    | some entry =>
      match hm : entry.metadata with
      | none => exact ih (by simpa [containsFileScan, hm] using hf)
      | some Metadata.dir => exact ih (by simpa [containsFileScan, hm] using hf)
      | some Metadata.other => exact ih (by simpa [containsFileScan, hm] using hf)
      | some Metadata.file =>
        match hn : entry.file_name.to_str with
        | none => simp [containsFileScan, hm, hn] at hf
        | some name =>
          rw [containsFileScan] at hf
          simp only [hm, hn] at hf
          rcases List.mem_cons.mp hf with hf | hf
          · rw [FilesystemVertex.File.injEq] at hf
            subst hf
            rfl
          · exact ih hf

/-- A character list with no dot has nothing after its last dot. -/
theorem afterLastDot_of_no_dot (l : List Char) (h : '.' ∉ l) : afterLastDot l = none := by
  induction l with
  | nil => rfl
  | cons c rest ih =>
    rw [afterLastDot, ih (fun hm => h (List.mem_cons_of_mem c hm))]
    simp only [List.mem_cons, not_or] at h
    simp
    intro hc
    exact absurd hc.symm h.1

/-- Unfolding of rustExtension on a name with a nonempty character list
that is not the dot-dot name. -/
theorem rustExtension_cons (name : String) (c : Char) (rest : List Char)
    (hd : name.data = c :: rest) (hne : name.data ≠ ['.', '.']) :
    rustExtension name =
      if c = '.' ∧ '.' ∉ rest then none
      else (afterLastDot (c :: rest)).map (fun t => String.mk t) := by
  unfold rustExtension
  rw [if_neg hne, hd]

/-- Unfolding of specExtension through the character list of the name. -/
theorem specExtension_eq (name : String) :
    specExtension name = (afterLastDot name.data).map (fun t => String.mk t) := rfl

/-- C4 counterexample: a regular file whose name is .gitignore, which
begins with a dot and has no other dot, is yielded with an absent
extension, while the substring after the last dot of that name is
gitignore, so the two disagree. -/
theorem file_extension_counterexample :
    (containsFileScan ""
        [some { file_name := OsString.utf8 ".gitignore", metadata := some Metadata.file }]).1 =
      [FilesystemVertex.File { name := ".gitignore", extension := none, path := ".gitignore" }] ∧
    specExtension ".gitignore" = some "gitignore" ∧
    (none : Option String) ≠ some "gitignore" := by
  refine ⟨rfl, by decide, by decide⟩

/-- C4 amended: every File vertex yielded by the file listing scan carries
the extension rustExtension computes from its name: absent when the name
has no dot; equal to the substring after the last dot when the name does
not begin with a dot, and also when it begins with a dot but contains a
further dot (and is not the dot-dot name, which a directory read never
produces); and absent when the only dot of the name is its leading
character, which is where the original claim fails. -/
theorem file_extension_amended (dirPath : String) (entries : List (Option DirEntry))
    (f : FileVertex) (hf : FilesystemVertex.File f ∈ (containsFileScan dirPath entries).1) :
    f.extension = rustExtension f.name ∧
    ('.' ∉ f.name.data → f.extension = none) ∧
    (∀ c rest, f.name.data = c :: rest → c ≠ '.' → f.extension = specExtension f.name) ∧
    (∀ rest, f.name.data = '.' :: rest → '.' ∈ rest → f.name.data ≠ ['.', '.'] →
      f.extension = specExtension f.name) ∧
    (∀ rest, f.name.data = '.' :: rest → '.' ∉ rest → f.extension = none) := by
  have he := containsFileScan_extension dirPath entries f hf
  refine ⟨he, ?_, ?_, ?_, ?_⟩
  · intro hnd
    rw [he]
    have hne : f.name.data ≠ ['.', '.'] := by
      intro hx
      exact hnd (hx ▸ List.mem_cons_self '.' ['.'])
    match hd : f.name.data with
    | [] =>
      unfold rustExtension
      rw [if_neg hne, hd]
    | c :: rest =>
      rw [hd] at hnd
      simp only [List.mem_cons, not_or] at hnd
      rw [rustExtension_cons f.name c rest hd hne,
        if_neg (fun hx : c = '.' ∧ '.' ∉ rest => hnd.1 hx.1.symm),
        afterLastDot_of_no_dot (c :: rest)
          (by simp only [List.mem_cons, not_or]; exact ⟨hnd.1, hnd.2⟩)]
      rfl
  · intro c rest hd hc
    have hne : f.name.data ≠ ['.', '.'] := by
      rw [hd]
      intro hx
      exact hc (List.cons.inj hx).1
    rw [he, rustExtension_cons f.name c rest hd hne,
      if_neg (fun hx : c = '.' ∧ '.' ∉ rest => hc hx.1), specExtension_eq, hd]
  · intro rest hd hrest hne
    rw [he, rustExtension_cons f.name '.' rest hd hne,
      if_neg (fun hx : '.' = '.' ∧ '.' ∉ rest => hx.2 hrest), specExtension_eq, hd]
  · intro rest hd hrest
    have hne : f.name.data ≠ ['.', '.'] := by
      rw [hd]
      intro hx
      exact hrest ((List.cons.inj hx).2 ▸ List.mem_cons_self '.' [])
    rw [he, rustExtension_cons f.name '.' rest hd hne, if_pos ⟨rfl, hrest⟩]

theorem file_extension_amended_witness :
    ({ name := "a.b.c", extension := some "c", path := "a.b.c" } : FileVertex).extension =
      specExtension "a.b.c" ∧
    ({ name := "noext", extension := none, path := "noext" } : FileVertex).extension = none ∧
    ({ name := ".gitignore", extension := none, path := ".gitignore" } : FileVertex).extension =
      none :=
  ⟨(file_extension_amended ""
      [some { file_name := OsString.utf8 "a.b.c", metadata := some Metadata.file }]
      { name := "a.b.c", extension := some "c", path := "a.b.c" } (by decide)).2.2.1
      'a' ['.', 'b', '.', 'c'] (by decide) (by decide),
    (file_extension_amended ""
      [some { file_name := OsString.utf8 "noext", metadata := some Metadata.file }]
      { name := "noext", extension := none, path := "noext" } (by decide)).2.1 (by decide),
    (file_extension_amended ""
      [some { file_name := OsString.utf8 ".gitignore", metadata := some Metadata.file }]
      { name := ".gitignore", extension := none, path := ".gitignore" } (by decide)).2.2.2.2
      ['g', 'i', 't', 'i', 'g', 'n', 'o', 'r', 'e'] (by decide) (by decide)⟩

/-- Running a fallible per-context resolver over a stream that succeeds
produces one output per input, and the output at each index is the
resolver value at the input of the same index. -/
theorem resolveEach_ok {α β : Type} (f : α → Except Unit β) :
    ∀ (l : List α) (outs : List β), resolveEach f l = Except.ok outs →
      outs.length = l.length ∧
      ∀ i (hi : i < l.length) (hj : i < outs.length),
        f (l.get ⟨i, hi⟩) = Except.ok (outs.get ⟨i, hj⟩) := by
  intro l
  induction l with
  | nil =>
    intro outs h
    rw [resolveEach] at h
    rw [← Except.ok.inj h]
    exact ⟨rfl, fun i hi => absurd hi (by simp)⟩
  | cons a rest ih =>
    intro outs h
    rw [resolveEach] at h
    match hfa : f a with
    | Except.error e => rw [hfa] at h; exact absurd h (by simp)
    | Except.ok b =>
      rw [hfa] at h
      match hrest : resolveEach f rest with
      | Except.error e => rw [hrest] at h; exact absurd h (by simp)
      | Except.ok bs =>
        rw [hrest] at h
        simp only at h
        rw [← Except.ok.inj h]
        obtain ⟨hlen, hpt⟩ := ih bs hrest
        refine ⟨by simp [hlen], ?_⟩
        intro i hi hj
        match i with
        | 0 => simpa using hfa
        | Nat.succ k =>
          have hk : k < rest.length := by simpa using hi
          have hk2 : k < bs.length := by omega
          simpa using hpt k hk hk2

/-- A fallible per-context resolver that maps every context with an
absent active vertex to that context paired with Null, run over a stream
that succeeds, keeps that behavior pointwise. -/
theorem resolveEach_absent_null (f : FsContext → Except Unit (FsContext × FieldValue))
    (hf : ∀ c, c.active_vertex = none → f c = Except.ok (c, FieldValue.Null))
    (ctxs : List FsContext) (outs : List (FsContext × FieldValue))
    (hok : resolveEach f ctxs = Except.ok outs)
    (i : Nat) (hi : i < ctxs.length)
    (habs : (ctxs.get ⟨i, hi⟩).active_vertex = none) :
    ∃ hj : i < outs.length, outs.get ⟨i, hj⟩ = (ctxs.get ⟨i, hi⟩, FieldValue.Null) := by
  obtain ⟨hlen, hpt⟩ := resolveEach_ok f ctxs outs hok
  have hj : i < outs.length := by omega
  refine ⟨hj, ?_⟩
  have h1 := hpt i hi hj
  rw [hf _ habs] at h1
  exact (Except.ok.inj h1).symm

/-- C6: for every declared property of every declared type, resolve_property
maps a context whose active vertex is absent to that same context paired
with the Null field value, at its original position in the stream. -/
theorem resolve_property_absent_null (type_name property_name : String)
    (hdecl : declaredProperty type_name property_name)
    (ctxs : List FsContext) (outs : List (FsContext × FieldValue))
    (hok : resolve_property ctxs type_name property_name = Except.ok outs)
    (i : Nat) (hi : i < ctxs.length)
    (habs : (ctxs.get ⟨i, hi⟩).active_vertex = none) :
    ∃ hj : i < outs.length, outs.get ⟨i, hj⟩ = (ctxs.get ⟨i, hi⟩, FieldValue.Null) := by
  rcases hdecl with ⟨hty, hp⟩ | ⟨hty, hp⟩ <;> subst hty <;>
    simp only [List.mem_cons, List.not_mem_nil, or_false] at hp
  · rcases hp with hp | hp | hp <;> subst hp <;>
      exact resolveEach_absent_null _ (fun c hc => by simp [hc]) ctxs outs hok i hi habs
  · rcases hp with hp | hp | hp | hp <;> subst hp <;>
      exact resolveEach_absent_null _ (fun c hc => by simp [hc]) ctxs outs hok i hi habs

theorem resolve_property_absent_null_witness :
    ∃ hj : 0 < ([({ tag := 7, active_vertex := none }, FieldValue.Null)] :
        List (FsContext × FieldValue)).length,
      ([({ tag := 7, active_vertex := none }, FieldValue.Null)] :
          List (FsContext × FieldValue)).get ⟨0, hj⟩ =
        (([{ tag := 7, active_vertex := none }] : List FsContext).get ⟨0, by decide⟩,
          FieldValue.Null) :=
  resolve_property_absent_null "File" "extension" (Or.inr ⟨rfl, by decide⟩)
    [{ tag := 7, active_vertex := none }]
    [({ tag := 7, active_vertex := none }, FieldValue.Null)] rfl 0 (by decide) rfl

/-- C7: an unrecognized property name for either known type, an
unrecognized type name, an unrecognized pair of type name and edge name in
resolve_neighbors, and every call to resolve_coercion are all immediate
panics, never a Null value and never a skipped or empty result. -/
theorem unrecognized_requests_fatal :
    (∀ (ctxs : List FsContext) (prop : String),
      prop ≠ "name" → prop ≠ "path" → prop ≠ "__typename" →
      resolve_property ctxs "Directory" prop = Except.error ()) ∧
    (∀ (ctxs : List FsContext) (prop : String),
      prop ≠ "name" → prop ≠ "path" → prop ≠ "extension" → prop ≠ "__typename" →
      resolve_property ctxs "File" prop = Except.error ()) ∧
    (∀ (ctxs : List FsContext) (ty prop : String),
      ty ≠ "Directory" → ty ≠ "File" →
      resolve_property ctxs ty prop = Except.error ()) ∧
    (∀ (fsys : FileSystem) (origin : String) (ctxs : List FsContext) (ty edge : String),
      ¬(ty = "Directory" ∧ edge = "out_Directory_ContainsFile") →
      ¬(ty = "Directory" ∧ edge = "out_Directory_Subdirectory") →
      resolve_neighbors fsys origin ctxs ty edge = Except.error ()) ∧
    (∀ (ctxs : List FsContext) (ty cty : String),
      resolve_coercion ctxs ty cty = Except.error ()) := by
  refine ⟨?_, ?_, ?_, ?_, fun _ _ _ => rfl⟩
  · intro ctxs prop h1 h2 h3
    simp [resolve_property, h1, h2, h3]
  · intro ctxs prop h1 h2 h3 h4
    simp [resolve_property, h1, h2, h3, h4]
  · intro ctxs ty prop h1 h2
    simp [resolve_property, h1, h2]
  · intro fsys origin ctxs ty edge h1 h2
    simp [resolve_neighbors, h1, h2]

theorem unrecognized_requests_fatal_witness :
    resolve_property [] "Directory" "size" = Except.error () ∧
    resolve_property [] "File" "size" = Except.error () ∧
    resolve_property [] "Symlink" "name" = Except.error () ∧
    resolve_neighbors (fun _ => Except.ok []) "" [] "File" "out_Directory_ContainsFile" =
      Except.error () ∧
    resolve_coercion [] "Directory" "File" = Except.error () :=
  ⟨unrecognized_requests_fatal.1 [] "size" (by decide) (by decide) (by decide),
    unrecognized_requests_fatal.2.1 [] "size" (by decide) (by decide) (by decide) (by decide),
    unrecognized_requests_fatal.2.2.1 [] "Symlink" "name" (by decide) (by decide),
    unrecognized_requests_fatal.2.2.2.1 (fun _ => Except.ok []) "" [] "File"
      "out_Directory_ContainsFile" (by decide) (by decide),
    unrecognized_requests_fatal.2.2.2.2 [] "Directory" "File"⟩
